import Mathlib

/-!
Verification of the emotion fusion and alignment core of the
`therapist-bot` repository (`backend/emotion_aligner.py` and
`backend/emotion_fusion.py`).

Modelling conventions:
* Python floats are modelled as `ℚ` in the alignment engine (whose
  arithmetic is plain `+ * /`) and as `ℝ` in the fusion engine (whose
  decay involves the real power `0.5 ** (age / half_life)`).
* Python values that a field may hold are modelled by `FloatLike`:
  a missing field, an explicit `None`, a float-coercible value carrying a
  rational, or a value on which `float(...)` raises.
* Python code paths that raise an uncaught exception are modelled with
  `Except Unit`; `.error ()` means the call raises.
* The seven canonical emotion labels form the inductive type `Emotion`;
  the per-label score dictionary (which in the source always has exactly
  the seven canonical keys, inserted in canonical order) is the record
  `ScoreMap`; it is rendered to an association list in canonical key
  order where the source returns the dict.
-/

instance {ε α : Type} [DecidableEq ε] [DecidableEq α] : DecidableEq (Except ε α)
  | .ok a, .ok b =>
    if h : a = b then .isTrue (by rw [h]) else .isFalse (by simp [h])
  | .ok _, .error _ => .isFalse (by simp)
  | .error _, .ok _ => .isFalse (by simp)
  | .error a, .error b =>
    if h : a = b then .isTrue (by rw [h]) else .isFalse (by simp [h])

/-- The seven canonical emotion labels (`EMOTIONS` in both source files). -/
inductive Emotion where
  | happy
  | sad
  | angry
  | neutral
  | fearful
  | disgusted
  | surprised
deriving DecidableEq, Repr

/-- The canonical iteration order of the label set, as in
`EMOTIONS = ["happy", "sad", "angry", "neutral", "fearful", "disgusted", "surprised"]`. -/
def EMOTIONS : List Emotion :=
  [.happy, .sad, .angry, .neutral, .fearful, .disgusted, .surprised]

/-- String form of each canonical label. -/
def Emotion.toStr : Emotion → String
  | .happy => "happy"
  | .sad => "sad"
  | .angry => "angry"
  | .neutral => "neutral"
  | .fearful => "fearful"
  | .disgusted => "disgusted"
  | .surprised => "surprised"

/-- Position of a label in the canonical iteration order. -/
def emotionIdx : Emotion → ℕ
  | .happy => 0
  | .sad => 1
  | .angry => 2
  | .neutral => 3
  | .fearful => 4
  | .disgusted => 5
  | .surprised => 6

/-- Membership test against the canonical label strings
(`normalized in EMOTIONS` in the source). -/
def parseEmotion (s : String) : Option Emotion :=
  if s = "happy" then some .happy
  else if s = "sad" then some .sad
  else if s = "angry" then some .angry
  else if s = "neutral" then some .neutral
  else if s = "fearful" then some .fearful
  else if s = "disgusted" then some .disgusted
  else if s = "surprised" then some .surprised
  else none

/-- A Python value sitting in a numeric field.
`missing`: the attribute/key is absent (`_get_attr` returns the default).
`none`: the field holds `None`.
`num q`: `float(...)` succeeds and yields `q`.
`bad`: the field holds a value on which `float(...)` raises. -/
inductive FloatLike where
  | missing
  | none
  | num (q : ℚ)
  | bad
deriving DecidableEq, Repr

/-- An emotion frame as consumed by `emotion_aligner.py`: the four fields the
aligner reads, each possibly missing or malformed.  `emotion = Option.none`
models a missing, `None` or otherwise falsy label (all normalize to
`neutral`); `some s` models a value whose `str(...)` form is `s`.
`scores = Option.none` models a missing or non-dict scores field;
`some l` models a dict with entries `l` (arbitrary string keys). -/
structure Frame where
  timestamp : FloatLike
  emotion : Option String
  confidence : FloatLike
  scores : Option (List (String × FloatLike))
deriving DecidableEq, Repr

/-- A word segment as consumed by `align_emotions`.  `word = Option.none`
models a missing or `None` word (coerced to `""`). -/
structure WordSegment where
  word : Option String
  start : FloatLike
  stop : FloatLike
deriving DecidableEq, Repr

/-- The `WordEmotion` dataclass of `emotion_aligner.py`.  The `scores` dict
is rendered as an association list in insertion (canonical) key order; it is
`[]` exactly where the source returns `{}`. -/
structure WordEmotion where
  word : String
  start : ℚ
  stop : ℚ
  emotion : Emotion
  confidence : ℚ
  scores : List (Emotion × ℚ)
deriving DecidableEq, Repr

/-- Python's `str.lower()` (restricted to the ASCII range, which is all the
canonical-label comparison depends on). -/
def strLower (s : String) : String := String.mk (s.data.map Char.toLower)

/-- `_normalize_emotion`: falsy values give `neutral`; otherwise the
lower-cased string form is looked up in the canonical set, defaulting to
`neutral`. -/
def normalize_emotion : Option String → Emotion
  | Option.none => .neutral
  | some s =>
    if s = "" then .neutral
    else
      match parseEmotion (strLower s) with
      | some e => e
      | Option.none => .neutral

/-- The per-label accumulator dict `{emotion: 0.0 for emotion in EMOTIONS}`:
a record with one rational per canonical label. -/
structure ScoreMap where
  happy : ℚ
  sad : ℚ
  angry : ℚ
  neutral : ℚ
  fearful : ℚ
  disgusted : ℚ
  surprised : ℚ
deriving DecidableEq, Repr

/-- The all-zero accumulator. -/
def ScoreMap.zero : ScoreMap := ⟨0, 0, 0, 0, 0, 0, 0⟩

/-- Dict read `scores[e]`. -/
def ScoreMap.get (s : ScoreMap) : Emotion → ℚ
  | .happy => s.happy
  | .sad => s.sad
  | .angry => s.angry
  | .neutral => s.neutral
  | .fearful => s.fearful
  | .disgusted => s.disgusted
  | .surprised => s.surprised

/-- Dict update `scores[e] += w`. -/
def ScoreMap.add (s : ScoreMap) (e : Emotion) (w : ℚ) : ScoreMap :=
  match e with
  | .happy => { s with happy := s.happy + w }
  | .sad => { s with sad := s.sad + w }
  | .angry => { s with angry := s.angry + w }
  | .neutral => { s with neutral := s.neutral + w }
  | .fearful => { s with fearful := s.fearful + w }
  | .disgusted => { s with disgusted := s.disgusted + w }
  | .surprised => { s with surprised := s.surprised + w }

/-- The frame weight: `_get_attr(frame, "confidence", 1.0)` followed by the
`None` check and `float(weight)`.  A missing field or a `None` value gives
the default `1.0`; a non-coercible value makes `float` raise (the source
does not guard this call). -/
def frameWeight : FloatLike → Except Unit ℚ
  | .missing => .ok 1
  | .none => .ok 1
  | .num q => .ok q
  | .bad => .error ()

/-- `float(frame_scores.get(emotion, 0.0))`: an absent key defaults to `0.0`;
a present value must be float-coercible, otherwise `float` raises (again
unguarded in the source). -/
def scoreVal (sc : List (String × FloatLike)) (e : Emotion) : Option ℚ :=
  match sc.find? (fun p => p.1 = e.toStr) with
  | Option.none => some 0
  | some (_, .num q) => some q
  | some (_, _) => Option.none

/-- The inner loop `for emotion in EMOTIONS: scores[emotion] +=
float(frame_scores.get(emotion, 0.0)) * weight` of the full-distribution
branch of `_aggregate_frames`. -/
def addFrameScores : List Emotion → List (String × FloatLike) → ℚ → ScoreMap →
    Except Unit ScoreMap
  | [], _, _, s => .ok s
  | e :: rest, sc, w, s =>
    match scoreVal sc e with
    | some v => addFrameScores rest sc w (s.add e (v * w))
    | Option.none => .error ()

/-- The frame loop of `_aggregate_frames`: accumulates the per-label sums and
the total weight over the frame list, propagating any `float(...)` failure. -/
def accumFrames : List Frame → ScoreMap → ℚ → Except Unit (ScoreMap × ℚ)
  | [], s, tw => .ok (s, tw)
  | f :: rest, s, tw =>
    match f.scores with
    | some sc =>
      if sc = [] then do
        let w ← frameWeight f.confidence
        accumFrames rest (s.add (normalize_emotion f.emotion) w) (tw + w)
      else do
        let w ← frameWeight f.confidence
        let s1 ← addFrameScores EMOTIONS sc w s
        accumFrames rest s1 (tw + w)
    | Option.none => do
      let w ← frameWeight f.confidence
      accumFrames rest (s.add (normalize_emotion f.emotion) w) (tw + w)

/-- One step of Python's `max(scores, key=scores.get)` on a dict iterated in
canonical key order: the current best is replaced only by a strictly larger
value, so the first maximum encountered wins. -/
def maxStep {α : Type} [LinearOrder α] (f : Emotion → α) (best e : Emotion) : Emotion :=
  if f e > f best then e else best

/-- `max(scores, key=scores.get)` over the canonical 7-key dict. -/
def argmaxEmotion {α : Type} [LinearOrder α] (f : Emotion → α) : Emotion :=
  EMOTIONS.foldl (maxStep f) .happy

/-- `max(scores.values())` over the canonical 7-key dict. -/
def maxScore {α : Type} [LinearOrder α] (f : Emotion → α) : α :=
  (EMOTIONS.map f).foldl max (f .happy)

/-- Render the accumulator as the returned scores dict (canonical key
order, as the source's dict comprehension preserves insertion order). -/
def scoresList (f : Emotion → ℚ) : List (Emotion × ℚ) :=
  EMOTIONS.map (fun e => (e, f e))

/-- `_aggregate_frames`: aggregates matched frames into
`(emotion, confidence, scores)`, raising (`.error ()`) where the source
would raise. -/
def aggregate_frames (frames : List Frame) : Except Unit (Emotion × ℚ × List (Emotion × ℚ)) :=
  if frames = [] then .ok (.neutral, 0, [])
  else do
    let r ← accumFrames frames ScoreMap.zero 0
    let s := r.1
    let tw := r.2
    if tw ≤ 0 then .ok (.neutral, 0, [])
    else
      let n : Emotion → ℚ := fun e => s.get e / tw
      if maxScore n ≤ 0 then .ok (.neutral, 0, scoresList n)
      else
        let d := argmaxEmotion n
        .ok (d, n d, scoresList n)

/-- `_frame_in_range`: a missing timestamp or one on which `float` raises
excludes the frame; otherwise the half-open test `start <= ts < end`. -/
def frame_in_range (f : Frame) (start stop : ℚ) : Bool :=
  match f.timestamp with
  | .num t => decide (start ≤ t) && decide (t < stop)
  | _ => false

/-- The matched-frame subset selected for one word in `align_emotions`. -/
def matchedFrames (frames : List Frame) (start stop : ℚ) : List Frame :=
  frames.filter (fun f => frame_in_range f start stop)

/-- `float(start)` with default `0.0`: a missing field yields the default,
a `None` or non-coercible value raises and is caught, giving `0.0`. -/
def parseStartQ : FloatLike → ℚ
  | .num q => q
  | _ => 0

/-- `float(end)` with default `0.0`: a missing field yields the default
`0.0`; a `None` or non-coercible value raises and is caught, giving
`start_value`. -/
def parseEndQ (startValue : ℚ) : FloatLike → ℚ
  | .num q => q
  | .missing => 0
  | _ => startValue

/-- `str(word)` after the `None` check. -/
def getWord : Option String → String
  | Option.none => ""
  | some s => s

/-- The per-segment body of the `align_emotions` loop. -/
def alignOne (seg : WordSegment) (frames : List Frame) : Except Unit WordEmotion := do
  let sv := parseStartQ seg.start
  let ev := parseEndQ sv seg.stop
  let r ← aggregate_frames (matchedFrames frames sv ev)
  .ok ⟨getWord seg.word, sv, ev, r.1, r.2.1, r.2.2⟩

/-- `align_emotions`: one `WordEmotion` per segment, in order; a raise
anywhere aborts the call. -/
def align_emotions (segments : List WordSegment) (frames : List Frame) :
    Except Unit (List WordEmotion) :=
  segments.mapM (fun seg => alignOne seg frames)

/-- `<emotion>word1 word2 ...</emotion>` for one finished run. -/
def renderRun (e : Emotion) (ws : List String) : String :=
  "<" ++ e.toStr ++ ">" ++ String.intercalate " " ws ++ "</" ++ e.toStr ++ ">"

/-- One step of the `format_tagged_text` loop: extend the current run or
flush it and start a new one. -/
def fmtStep (acc : List String × Emotion × List String) (w : WordEmotion) :
    List String × Emotion × List String :=
  if w.emotion = acc.2.1 then (acc.1, acc.2.1, acc.2.2 ++ [w.word])
  else (acc.1 ++ [renderRun acc.2.1 acc.2.2], w.emotion, [w.word])

/-- `format_tagged_text`: groups consecutive equal-emotion words, renders
each run as a tag pair and joins the rendered runs with single spaces. -/
def format_tagged_text (ws : List WordEmotion) : String :=
  match ws with
  | [] => ""
  | w :: rest =>
    let acc := rest.foldl fmtStep ([], w.emotion, [w.word])
    String.intercalate " " (acc.1 ++ [renderRun acc.2.1 acc.2.2])

/-- The run grouping computed by the `format_tagged_text` loop, kept as
data: the list of `(emotion, words)` runs in order. -/
def tagRuns : Emotion → List String → List WordEmotion → List (Emotion × List String)
  | ce, cw, [] => [(ce, cw)]
  | ce, cw, w :: rest =>
    if w.emotion = ce then tagRuns ce (cw ++ [w.word]) rest
    else (ce, cw) :: tagRuns w.emotion [w.word] rest

/-- The list of maximal same-emotion runs of a `WordEmotion` sequence. -/
def taggedSegments : List WordEmotion → List (Emotion × List String)
  | [] => []
  | w :: rest => tagRuns w.emotion [w.word] rest

/-- Number of maximal runs of equal adjacent elements (the spec's
"maximal same-emotion runs"). -/
def countRuns : List Emotion → ℕ
  | [] => 0
  | [_] => 1
  | a :: b :: rest => (if a = b then 0 else 1) + countRuns (b :: rest)

/-! ### Fusion engine (`emotion_fusion.py`) -/

/-- `DECAY_HALF_LIFE = 10.0`. -/
def DECAY_HALF_LIFE : ℝ := 10

/-- `MODALITY_WEIGHTS["audio"] = 0.6`. -/
def AUDIO_WEIGHT : ℝ := 0.6

/-- `MODALITY_WEIGHTS["video"] = 0.4`. -/
def VIDEO_WEIGHT : ℝ := 0.4

/-- A stored `EmotionReading`: the label is already normalized and the
confidence already clamped by the constructor; `timestamp` is the creation
time (`time.time()`). -/
structure EmotionReading where
  emotion : Emotion
  confidence : ℝ
  timestamp : ℝ

/-- The `EmotionReading.__init__` constructor: clamps the confidence to
`[0, 1]` via `min(max(confidence, 0.0), 1.0)`. -/
noncomputable def mkReading (e : Emotion) (confidence : ℝ) (t : ℝ) : EmotionReading :=
  ⟨e, min (max confidence 0) 1, t⟩

/-- `EmotionReading.decayed_confidence`: `confidence * 0.5 ** (age / DECAY_HALF_LIFE)`
with `age = now - timestamp` (real exponentiation). -/
noncomputable def decayed_confidence (r : EmotionReading) (now : ℝ) : ℝ :=
  r.confidence * (1 / 2 : ℝ) ^ ((now - r.timestamp) / DECAY_HALF_LIFE)

/-- The per-label sum `scores[reading.emotion] += w` accumulated over a
modality's readings. -/
noncomputable def raw_score (readings : List EmotionReading) (now : ℝ) (e : Emotion) : ℝ :=
  ((readings.filter (fun r => r.emotion = e)).map (fun r => decayed_confidence r now)).sum

/-- The running `total_weight` of `_aggregate_modality`. -/
noncomputable def total_weight (readings : List EmotionReading) (now : ℝ) : ℝ :=
  (readings.map (fun r => decayed_confidence r now)).sum

/-- The `{"emotion": ..., "confidence": ..., "scores": ...}` dict returned by
`_aggregate_modality` and embedded in the fused result. -/
structure ModalityAgg where
  emotion : Emotion
  confidence : ℝ
  scores : List (Emotion × ℝ)

/-- `dict.get(emotion, 0.0)` on a scores association list. -/
def scoreGet (l : List (Emotion × ℝ)) (e : Emotion) : ℝ :=
  match l.find? (fun p => p.1 = e) with
  | some p => p.2
  | Option.none => 0

/-- The normalized (when the total weight is positive) per-label scores of
`_aggregate_modality`. -/
noncomputable def aggScores (readings : List EmotionReading) (now : ℝ) : Emotion → ℝ :=
  if 0 < total_weight readings now then
    fun e => raw_score readings now e / total_weight readings now
  else fun e => raw_score readings now e

/-- `_aggregate_modality`: empty window short-circuits to neutral with empty
scores; otherwise decayed weights are accumulated per label, normalized when
the total weight is positive, and the dominant label is the first maximum in
canonical order. -/
noncomputable def aggregate_modality (readings : List EmotionReading) (now : ℝ) :
    ModalityAgg :=
  if readings.isEmpty then ⟨.neutral, 0, []⟩
  else
    let scores := aggScores readings now
    let dominant := argmaxEmotion scores
    ⟨dominant, scores dominant, EMOTIONS.map (fun e => (e, scores e))⟩

/-- The incongruence heuristic of `get_fused_emotion` (source lines 154-160). -/
noncomputable def incongruence_flag (a v : ModalityAgg) : Bool :=
  decide (a.emotion ≠ Emotion.neutral) && decide (v.emotion ≠ Emotion.neutral) &&
    decide (a.emotion ≠ v.emotion) && decide ((3 / 10 : ℝ) < a.confidence) &&
    decide ((3 / 10 : ℝ) < v.confidence)

/-- The fusion-engine state: the two per-modality sliding windows (deque
contents oldest first) and the window capacity. -/
structure FusionState where
  window_size : ℕ
  audio_readings : List EmotionReading
  video_readings : List EmotionReading

/-- `deque(maxlen=window_size).append`: drop the oldest entries once the
capacity is exceeded. -/
def appendWindow (ws : ℕ) (rs : List EmotionReading) (r : EmotionReading) :
    List EmotionReading :=
  let l := rs ++ [r]
  if ws < l.length then l.drop (l.length - ws) else l

/-- A Python object passed as the `emotion` argument of
`update_audio`/`update_video`: either a string or a non-string value
(on which `emotion.lower()` raises `AttributeError`). -/
inductive PyLabel where
  | str (s : String)
  | nonstr

/-- `update_audio`: `emotion.lower()` (raising on non-strings), canonical-set
lookup defaulting to `neutral`, then append of a clamped reading. -/
noncomputable def update_audio (label : PyLabel) (confidence : ℝ) (now : ℝ)
    (st : FusionState) : Except Unit FusionState :=
  match label with
  | .nonstr => .error ()
  | .str s =>
    let e := match parseEmotion (strLower s) with
      | some e => e
      | Option.none => .neutral
    .ok { st with
      audio_readings := appendWindow st.window_size st.audio_readings (mkReading e confidence now) }

/-- `update_video`: same as `update_audio` on the video window. -/
noncomputable def update_video (label : PyLabel) (confidence : ℝ) (now : ℝ)
    (st : FusionState) : Except Unit FusionState :=
  match label with
  | .nonstr => .error ()
  | .str s =>
    let e := match parseEmotion (strLower s) with
      | some e => e
      | Option.none => .neutral
    .ok { st with
      video_readings := appendWindow st.window_size st.video_readings (mkReading e confidence now) }

/-- The dict returned by `get_fused_emotion`. -/
structure FusionResult where
  dominant : Emotion
  confidence : ℝ
  audio : ModalityAgg
  video : ModalityAgg
  fused_scores : List (Emotion × ℝ)
  incongruence : Bool

/-- `get_fused_emotion`: aggregates both modalities, short-circuits when both
windows are empty, reweights fully when exactly one is empty, fuses the score
dicts with the modality weights, takes the first-maximum fused label, and
computes the incongruence flag. -/
noncomputable def get_fused_emotion (st : FusionState) (now : ℝ) : FusionResult :=
  let audio_agg := aggregate_modality st.audio_readings now
  let video_agg := aggregate_modality st.video_readings now
  if st.audio_readings.isEmpty && st.video_readings.isEmpty then
    ⟨.neutral, 0, audio_agg, video_agg, EMOTIONS.map (fun e => (e, 0)), false⟩
  else
    let audio_weight : ℝ :=
      if st.audio_readings.isEmpty then 0
      else if st.video_readings.isEmpty then 1 else AUDIO_WEIGHT
    let video_weight : ℝ :=
      if st.audio_readings.isEmpty then 1
      else if st.video_readings.isEmpty then 0 else VIDEO_WEIGHT
    let fused := fun e =>
      scoreGet audio_agg.scores e * audio_weight + scoreGet video_agg.scores e * video_weight
    let dominant := argmaxEmotion fused
    ⟨dominant, fused dominant, audio_agg, video_agg,
      EMOTIONS.map (fun e => (e, fused e)), incongruence_flag audio_agg video_agg⟩

/-! ### Generic lemmas about the first-maximum fold (`max(d, key=d.get)`) -/

lemma foldl_maxStep_le {α : Type} [LinearOrder α] (f : Emotion → α) :
    ∀ (l : List Emotion) (b : Emotion), f b ≤ f (l.foldl (maxStep f) b) := by
  intro l
  induction l with
  | nil => intro b; exact le_refl _
  | cons a l ih =>
    intro b
    simp only [List.foldl_cons]
    have h1 : f b ≤ f (maxStep f b a) := by
      unfold maxStep
      split
      · exact le_of_lt (by assumption)
      · exact le_refl _
    exact le_trans h1 (ih (maxStep f b a))

lemma foldl_maxStep_mem_le {α : Type} [LinearOrder α] (f : Emotion → α) :
    ∀ (l : List Emotion) (b e : Emotion), e ∈ l → f e ≤ f (l.foldl (maxStep f) b) := by
  intro l
  induction l with
  | nil => intro b e he; cases he
  | cons a l ih =>
    intro b e he
    simp only [List.foldl_cons]
    rcases List.mem_cons.mp he with rfl | he
    · have h1 : f e ≤ f (maxStep f b e) := by
        unfold maxStep
        split
        · exact le_refl _
        · exact le_of_not_lt (by assumption)
      exact le_trans h1 (foldl_maxStep_le f l (maxStep f b e))
    · exact ih (maxStep f b a) e he

lemma foldl_maxStep_first {α : Type} [LinearOrder α] (f : Emotion → α) :
    ∀ (l : List Emotion) (b : Emotion),
      l.foldl (maxStep f) b = b ∨
        ∃ l1 e l2, l = l1 ++ e :: l2 ∧ l.foldl (maxStep f) b = e ∧ f b < f e ∧
          ∀ x ∈ l1, f x < f e := by
  intro l
  induction l with
  | nil => intro b; left; rfl
  | cons a l ih =>
    intro b
    simp only [List.foldl_cons]
    by_cases h : f a > f b
    · have hstep : maxStep f b a = a := if_pos h
      rw [hstep]
      rcases ih a with h1 | ⟨l1, e, l2, hl, hr, hb, hfirst⟩
      · right
        exact ⟨[], a, l, by simp, h1, h, by simp⟩
      · right
        refine ⟨a :: l1, e, l2, by rw [hl, List.cons_append], hr, lt_trans h hb, ?_⟩
        intro x hx
        rcases List.mem_cons.mp hx with rfl | hx
        · exact hb
        · exact hfirst x hx
    · have hstep : maxStep f b a = b := if_neg h
      rw [hstep]
      rcases ih b with h1 | ⟨l1, e, l2, hl, hr, hb, hfirst⟩
      · left; exact h1
      · right
        refine ⟨a :: l1, e, l2, by rw [hl, List.cons_append], hr, hb, ?_⟩
        intro x hx
        rcases List.mem_cons.mp hx with rfl | hx
        · exact lt_of_le_of_lt (le_of_not_lt h) hb
        · exact hfirst x hx

lemma emotion_mem_EMOTIONS (e : Emotion) : e ∈ EMOTIONS := by
  cases e <;> simp [EMOTIONS]

lemma argmax_is_max {α : Type} [LinearOrder α] (f : Emotion → α) :
    ∀ e ∈ EMOTIONS, f e ≤ f (argmaxEmotion f) := by
  intro e he
  exact foldl_maxStep_mem_le f EMOTIONS .happy e he

lemma argmax_first {α : Type} [LinearOrder α] (f : Emotion → α) :
    ∀ e, emotionIdx e < emotionIdx (argmaxEmotion f) → f e < f (argmaxEmotion f) := by
  obtain h | ⟨l1, e0, l2, hl, hr, hb, hfirst⟩ := foldl_maxStep_first f EMOTIONS .happy
  · unfold argmaxEmotion
    rw [h]
    intro e he
    cases e <;> simp [emotionIdx] at he
  · unfold argmaxEmotion
    rw [hr]
    unfold EMOTIONS at hl
    rcases l1 with _ | ⟨a1, l1⟩
    · rw [List.nil_append] at hl
      injection hl with h1 h2
      subst h1
      intro e he
      cases e <;> simp [emotionIdx] at he
    · rw [List.cons_append] at hl
      injection hl with h1 h2
      subst h1
      rcases l1 with _ | ⟨a2, l1⟩
      · rw [List.nil_append] at h2
        injection h2 with h1 h3
        subst h1
        intro e he
        cases e <;> simp [emotionIdx] at he ⊢ <;> exact hfirst _ (by simp)
      · rw [List.cons_append] at h2
        injection h2 with h1 h3
        subst h1
        rcases l1 with _ | ⟨a3, l1⟩
        · rw [List.nil_append] at h3
          injection h3 with h1 h4
          subst h1
          intro e he
          cases e <;> simp [emotionIdx] at he ⊢ <;> exact hfirst _ (by simp)
        · rw [List.cons_append] at h3
          injection h3 with h1 h4
          subst h1
          rcases l1 with _ | ⟨a4, l1⟩
          · rw [List.nil_append] at h4
            injection h4 with h1 h5
            subst h1
            intro e he
            cases e <;> simp [emotionIdx] at he ⊢ <;> exact hfirst _ (by simp)
          · rw [List.cons_append] at h4
            injection h4 with h1 h5
            subst h1
            rcases l1 with _ | ⟨a5, l1⟩
            · rw [List.nil_append] at h5
              injection h5 with h1 h6
              subst h1
              intro e he
              cases e <;> simp [emotionIdx] at he ⊢ <;> exact hfirst _ (by simp)
            · rw [List.cons_append] at h5
              injection h5 with h1 h6
              subst h1
              rcases l1 with _ | ⟨a6, l1⟩
              · rw [List.nil_append] at h6
                injection h6 with h1 h7
                subst h1
                intro e he
                cases e <;> simp [emotionIdx] at he ⊢ <;> exact hfirst _ (by simp)
              · rw [List.cons_append] at h6
                injection h6 with h1 h7
                subst h1
                rcases l1 with _ | ⟨a7, l1⟩
                · rw [List.nil_append] at h7
                  injection h7 with h1 h8
                  subst h1
                  intro e he
                  cases e <;> simp [emotionIdx] at he ⊢ <;> exact hfirst _ (by simp)
                · rw [List.cons_append] at h7
                  injection h7 with h1 h8
                  simp at h8

/-! ### Run-grouping lemmas for `format_tagged_text` -/

lemma fmt_foldl_eq_tagRuns :
    ∀ (rest : List WordEmotion) (segs : List String) (ce : Emotion) (cw : List String),
      (rest.foldl fmtStep (segs, ce, cw)).1 ++
          [renderRun (rest.foldl fmtStep (segs, ce, cw)).2.1
            (rest.foldl fmtStep (segs, ce, cw)).2.2] =
        segs ++ (tagRuns ce cw rest).map (fun p => renderRun p.1 p.2) := by
  intro rest
  induction rest with
  | nil => intro segs ce cw; simp [tagRuns]
  | cons w rest ih =>
    intro segs ce cw
    simp only [List.foldl_cons, fmtStep, tagRuns]
    by_cases h : w.emotion = ce
    · rw [if_pos h, if_pos h]
      exact ih segs ce (cw ++ [w.word])
    · rw [if_neg h, if_neg h]
      simpa [List.append_assoc] using ih (segs ++ [renderRun ce cw]) w.emotion [w.word]

lemma tagRuns_length :
    ∀ (rest : List WordEmotion) (ce : Emotion) (cw : List String),
      (tagRuns ce cw rest).length = countRuns (ce :: rest.map (fun w => w.emotion)) := by
  intro rest
  induction rest with
  | nil => intro ce cw; simp [tagRuns, countRuns]
  | cons w rest ih =>
    intro ce cw
    simp only [tagRuns, List.map_cons]
    by_cases h : w.emotion = ce
    · rw [if_pos h, ih ce (cw ++ [w.word])]
      simp only [countRuns, h]
      simp
    · rw [if_neg h]
      simp only [List.length_cons, ih w.emotion [w.word], countRuns]
      have hne : ¬ ce = w.emotion := fun hh => h hh.symm
      rw [if_neg hne]
      omega

lemma tagRuns_words :
    ∀ (rest : List WordEmotion) (ce : Emotion) (cw : List String),
      ((tagRuns ce cw rest).map Prod.snd).flatten = cw ++ rest.map (fun w => w.word) := by
  intro rest
  induction rest with
  | nil => intro ce cw; simp [tagRuns]
  | cons w rest ih =>
    intro ce cw
    simp only [tagRuns, List.map_cons]
    by_cases h : w.emotion = ce
    · rw [if_pos h, ih ce (cw ++ [w.word])]
      simp
    · rw [if_neg h]
      simp only [List.map_cons, List.flatten_cons, ih w.emotion [w.word]]
      simp

/-- C7: for every `WordEmotion` sequence, `format_tagged_text` renders
exactly one tag pair per maximal run of consecutive equal emotion labels
(the rendered runs joined by single spaces), the words recovered from the
runs (ignoring the tags) are the original word sequence in order, and the
empty input yields the empty string. -/
theorem C7_format_tagged_text_runs (ws : List WordEmotion) :
    format_tagged_text ws =
      String.intercalate " " ((taggedSegments ws).map (fun p => renderRun p.1 p.2)) ∧
    (taggedSegments ws).length = countRuns (ws.map (fun w => w.emotion)) ∧
    ((taggedSegments ws).map Prod.snd).flatten = ws.map (fun w => w.word) ∧
    format_tagged_text ([] : List WordEmotion) = "" := by
  refine ⟨?_, ?_, ?_, rfl⟩
  · cases ws with
    | nil => rfl
    | cons w rest =>
      show String.intercalate " "
          ((rest.foldl fmtStep ([], w.emotion, [w.word])).1 ++
            [renderRun (rest.foldl fmtStep ([], w.emotion, [w.word])).2.1
              (rest.foldl fmtStep ([], w.emotion, [w.word])).2.2]) = _
      rw [fmt_foldl_eq_tagRuns rest [] w.emotion [w.word]]
      rfl
  · cases ws with
    | nil => rfl
    | cons w rest =>
      show (tagRuns w.emotion [w.word] rest).length = _
      rw [tagRuns_length rest w.emotion [w.word]]
      rfl
  · cases ws with
    | nil => rfl
    | cons w rest =>
      show ((tagRuns w.emotion [w.word] rest).map Prod.snd).flatten = _
      rw [tagRuns_words rest w.emotion [w.word]]
      rfl

/-- C9: every emotion label appearing in an output of the core is one of the
7 canonical labels.  In the embedding all stored and returned labels are
values of the `Emotion` type, which the normalization functions
(`normalize_emotion`, the canonical-set lookup in `update_audio` /
`update_video`) produce from raw input; the theorem records that every
label-valued output component of `align_emotions`, `taggedSegments`
(the tags of `format_tagged_text`), and `get_fused_emotion` lies in
`EMOTIONS`. -/
theorem C9_canonical_labels :
    (∀ (segs : List WordSegment) (frames : List Frame) (res : List WordEmotion),
      align_emotions segs frames = .ok res →
      ∀ we ∈ res, we.emotion ∈ EMOTIONS ∧ ∀ p ∈ we.scores, p.1 ∈ EMOTIONS) ∧
    (∀ ws : List WordEmotion, ∀ seg ∈ taggedSegments ws, seg.1 ∈ EMOTIONS) ∧
    (∀ (st : FusionState) (now : ℝ),
      (get_fused_emotion st now).dominant ∈ EMOTIONS ∧
      (get_fused_emotion st now).audio.emotion ∈ EMOTIONS ∧
      (get_fused_emotion st now).video.emotion ∈ EMOTIONS ∧
      (∀ p ∈ (get_fused_emotion st now).fused_scores, p.1 ∈ EMOTIONS) ∧
      (∀ p ∈ (get_fused_emotion st now).audio.scores, p.1 ∈ EMOTIONS) ∧
      (∀ p ∈ (get_fused_emotion st now).video.scores, p.1 ∈ EMOTIONS)) := by
  refine ⟨?_, ?_, ?_⟩
  · intro segs frames res _ we _
    exact ⟨emotion_mem_EMOTIONS _, fun p _ => emotion_mem_EMOTIONS _⟩
  · intro ws seg _
    exact emotion_mem_EMOTIONS _
  · intro st now
    exact ⟨emotion_mem_EMOTIONS _, emotion_mem_EMOTIONS _, emotion_mem_EMOTIONS _,
      fun p _ => emotion_mem_EMOTIONS _, fun p _ => emotion_mem_EMOTIONS _,
      fun p _ => emotion_mem_EMOTIONS _⟩

/-- Witness for C9 at a concrete aligner call. -/
theorem C9_canonical_labels_witness :
    (⟨"w", 0, 0, .neutral, 0, []⟩ : WordEmotion).emotion ∈ EMOTIONS :=
  (C9_canonical_labels.1 [⟨some "w", .num 0, .num 0⟩] [] _ rfl
    ⟨"w", 0, 0, .neutral, 0, []⟩ (List.mem_singleton_self _)).1

/-! ### Lemmas about the fusion aggregates -/

lemma scoreGet_mapped (g : Emotion → ℝ) (e : Emotion) :
    scoreGet (EMOTIONS.map (fun x => (x, g x))) e = g e := by
  cases e <;> simp [scoreGet, EMOTIONS, List.find?]

lemma scoreGet_nil (e : Emotion) : scoreGet [] e = 0 := rfl

lemma aggregate_modality_empty (now : ℝ) :
    aggregate_modality [] now = ⟨.neutral, 0, []⟩ := by
  simp [aggregate_modality]

lemma argmax_const_zero : argmaxEmotion (fun _ : Emotion => (0 : ℝ)) = .happy := by
  simp [argmaxEmotion, EMOTIONS, maxStep]

/-- C2: the incongruence flag of `get_fused_emotion` is true iff both
modalities' aggregate dominant emotions are non-neutral, they differ, and
both modalities' own aggregate confidences strictly exceed `0.3`. -/
theorem C2_incongruence_iff (st : FusionState) (now : ℝ) :
    (get_fused_emotion st now).incongruence = true ↔
      ((aggregate_modality st.audio_readings now).emotion ≠ Emotion.neutral ∧
       (aggregate_modality st.video_readings now).emotion ≠ Emotion.neutral ∧
       (aggregate_modality st.audio_readings now).emotion ≠
         (aggregate_modality st.video_readings now).emotion ∧
       (3 / 10 : ℝ) < (aggregate_modality st.audio_readings now).confidence ∧
       (3 / 10 : ℝ) < (aggregate_modality st.video_readings now).confidence) := by
  by_cases h : (st.audio_readings.isEmpty && st.video_readings.isEmpty) = true
  · have ha : st.audio_readings = [] := by
      have := (Bool.and_eq_true _ _).mp h
      exact List.isEmpty_iff.mp this.1
    rw [get_fused_emotion, if_pos h]
    constructor
    · intro hh
      exact absurd hh (by simp)
    · rintro ⟨hne, -, -, -, -⟩
      exact absurd (by rw [ha, aggregate_modality_empty]) hne
  · rw [get_fused_emotion, if_neg h]
    show incongruence_flag _ _ = true ↔ _
    rw [incongruence_flag]
    simp only [Bool.and_eq_true, decide_eq_true_eq]
    tauto

lemma aggregate_modality_nonempty (readings : List EmotionReading) (now : ℝ)
    (h : readings ≠ []) :
    aggregate_modality readings now =
      ⟨argmaxEmotion (aggScores readings now),
        aggScores readings now (argmaxEmotion (aggScores readings now)),
        EMOTIONS.map (fun e => (e, aggScores readings now e))⟩ := by
  have hne : readings.isEmpty = false := by
    cases hA : readings.isEmpty
    · rfl
    · exact absurd (List.isEmpty_iff.mp hA) h
  simp [aggregate_modality, hne]

/-- C5: if exactly one modality's window is empty, `get_fused_emotion` gives
it weight 0 and the other weight 1, so the fused dominant / confidence /
scores equal the non-empty modality's aggregate ones; if both windows are
empty the result short-circuits to neutral, confidence 0, all-zero fused
scores and incongruence false. -/
theorem C5_empty_window_reweighting (st : FusionState) (now : ℝ) :
    (st.video_readings = [] → st.audio_readings ≠ [] →
      (get_fused_emotion st now).dominant =
        (aggregate_modality st.audio_readings now).emotion ∧
      (get_fused_emotion st now).confidence =
        (aggregate_modality st.audio_readings now).confidence ∧
      (get_fused_emotion st now).fused_scores =
        (aggregate_modality st.audio_readings now).scores) ∧
    (st.audio_readings = [] → st.video_readings ≠ [] →
      (get_fused_emotion st now).dominant =
        (aggregate_modality st.video_readings now).emotion ∧
      (get_fused_emotion st now).confidence =
        (aggregate_modality st.video_readings now).confidence ∧
      (get_fused_emotion st now).fused_scores =
        (aggregate_modality st.video_readings now).scores) ∧
    (st.audio_readings = [] → st.video_readings = [] →
      get_fused_emotion st now =
        ⟨.neutral, 0, ⟨.neutral, 0, []⟩, ⟨.neutral, 0, []⟩,
          EMOTIONS.map (fun e => (e, 0)), false⟩) := by
  refine ⟨?_, ?_, ?_⟩
  · intro hv ha
    have hvE : st.video_readings.isEmpty = true := List.isEmpty_iff.mpr hv
    have haE : st.audio_readings.isEmpty = false := by
      cases hA : st.audio_readings.isEmpty
      · rfl
      · exact absurd (List.isEmpty_iff.mp hA) ha
    rw [get_fused_emotion]
    simp only [haE, hvE, Bool.false_and, Bool.false_eq_true, if_false, if_true]
    rw [aggregate_modality_nonempty st.audio_readings now ha, hv, aggregate_modality_empty]
    dsimp only
    have hfused : ∀ e,
        scoreGet (EMOTIONS.map (fun x => (x, aggScores st.audio_readings now x))) e * 1 +
          scoreGet ([] : List (Emotion × ℝ)) e * 0 = aggScores st.audio_readings now e := by
      intro e
      rw [scoreGet_mapped, scoreGet_nil]
      ring
    simp only [hfused]
    exact ⟨trivial, trivial, trivial⟩
  · intro ha hv
    have haE : st.audio_readings.isEmpty = true := List.isEmpty_iff.mpr ha
    have hvE : st.video_readings.isEmpty = false := by
      cases hV : st.video_readings.isEmpty
      · rfl
      · exact absurd (List.isEmpty_iff.mp hV) hv
    rw [get_fused_emotion]
    simp only [haE, hvE, Bool.true_and, Bool.false_eq_true, if_false, if_true]
    rw [aggregate_modality_nonempty st.video_readings now hv, ha, aggregate_modality_empty]
    dsimp only
    have hfused : ∀ e,
        scoreGet ([] : List (Emotion × ℝ)) e * 0 +
          scoreGet (EMOTIONS.map (fun x => (x, aggScores st.video_readings now x))) e * 1 =
          aggScores st.video_readings now e := by
      intro e
      rw [scoreGet_mapped, scoreGet_nil]
      ring
    simp only [hfused]
    exact ⟨trivial, trivial, trivial⟩
  · intro ha hv
    have haE : st.audio_readings.isEmpty = true := List.isEmpty_iff.mpr ha
    have hvE : st.video_readings.isEmpty = true := List.isEmpty_iff.mpr hv
    rw [get_fused_emotion]
    simp only [haE, hvE, Bool.and_self, if_true]
    rw [ha, hv, aggregate_modality_empty]

lemma decay_factor_pos (x : ℝ) : 0 < (1 / 2 : ℝ) ^ x :=
  Real.rpow_pos_of_pos (by norm_num) x

lemma decayed_confidence_nonneg (r : EmotionReading) (now : ℝ) (h : 0 ≤ r.confidence) :
    0 ≤ decayed_confidence r now :=
  mul_nonneg h (le_of_lt (decay_factor_pos _))

lemma list_sum_zero_of_nonneg :
    ∀ (l : List ℝ), (∀ x ∈ l, 0 ≤ x) → l.sum = 0 → ∀ x ∈ l, x = 0 := by
  intro l
  induction l with
  | nil => intro _ _ x hx; cases hx
  | cons a l ih =>
    intro h hsum x hx
    have ha : 0 ≤ a := h a (by simp)
    have hl : 0 ≤ l.sum := List.sum_nonneg (fun y hy => h y (by simp [hy]))
    rw [List.sum_cons] at hsum
    have ha0 : a = 0 := by linarith
    have hl0 : l.sum = 0 := by linarith
    rcases List.mem_cons.mp hx with rfl | hx
    · exact ha0
    · exact ih (fun y hy => h y (by simp [hy])) hl0 x hx

/-- C10 (implicit): when a modality's window is non-empty but its total
decayed weight is zero (e.g. a single reading with confidence `0.0`),
`_aggregate_modality` skips normalization, leaving all scores at zero, and
`max` over the all-zero dict returns the first key `happy` — so the
modality's aggregate emotion is `happy` with confidence `0.0`, and with the
other window empty the fused dominant is likewise `happy` with
confidence `0.0`. -/
theorem C10_zero_weight_happy (st : FusionState) (now : ℝ)
    (ha : st.audio_readings ≠ [])
    (hnn : ∀ r ∈ st.audio_readings, 0 ≤ r.confidence)
    (hw : total_weight st.audio_readings now = 0)
    (hv : st.video_readings = []) :
    (get_fused_emotion st now).audio.emotion = .happy ∧
    (get_fused_emotion st now).audio.confidence = 0 ∧
    (get_fused_emotion st now).dominant = .happy ∧
    (get_fused_emotion st now).confidence = 0 := by
  have hzero : ∀ r ∈ st.audio_readings, decayed_confidence r now = 0 := by
    intro r hr
    refine list_sum_zero_of_nonneg
      (st.audio_readings.map fun r => decayed_confidence r now) ?_ hw _
      (List.mem_map_of_mem _ hr)
    intro x hx
    obtain ⟨r2, hr2, rfl⟩ := List.mem_map.mp hx
    exact decayed_confidence_nonneg r2 now (hnn r2 hr2)
  have hraw : ∀ e, raw_score st.audio_readings now e = 0 := by
    intro e
    apply List.sum_eq_zero
    intro x hx
    obtain ⟨r2, hr2, rfl⟩ := List.mem_map.mp hx
    exact hzero r2 (List.mem_of_mem_filter hr2)
  have hAggF : aggScores st.audio_readings now = (fun _ : Emotion => (0 : ℝ)) := by
    unfold aggScores
    rw [hw]
    rw [if_neg (lt_irrefl (0 : ℝ))]
    funext e
    exact hraw e
  have hAggm : aggregate_modality st.audio_readings now =
      ⟨.happy, 0, EMOTIONS.map (fun e => (e, (0 : ℝ)))⟩ := by
    rw [aggregate_modality_nonempty _ _ ha, hAggF, argmax_const_zero]
  have hvE : st.video_readings.isEmpty = true := List.isEmpty_iff.mpr hv
  have haE : st.audio_readings.isEmpty = false := by
    cases hA : st.audio_readings.isEmpty
    · rfl
    · exact absurd (List.isEmpty_iff.mp hA) ha
  rw [get_fused_emotion]
  simp only [haE, hvE, Bool.false_and, Bool.false_eq_true, if_false, if_true]
  rw [hAggm, hv, aggregate_modality_empty]
  dsimp only
  have hfz : ∀ e, scoreGet (EMOTIONS.map (fun e => (e, (0 : ℝ)))) e * 1 +
      scoreGet ([] : List (Emotion × ℝ)) e * 0 = (0 : ℝ) := by
    intro e
    have h1 : scoreGet (EMOTIONS.map (fun e => (e, (0 : ℝ)))) e = 0 := by
      cases e <;> simp [scoreGet, EMOTIONS]
    rw [h1, scoreGet_nil]
    ring
  simp only [hfz]
  exact ⟨trivial, trivial, argmax_const_zero, trivial⟩

/-- C6: a reading's contribution weight to its modality's aggregate is
`confidence * 0.5 ^ (age_seconds / half_life)` with the age measured at the
moment of the call and `DECAY_HALF_LIFE = 10`; in particular a reading with
confidence `1.0` aged exactly `10` seconds has decayed weight `0.5`
(within `1e-6`). -/
theorem C6_decay_half_life :
    (∀ (readings : List EmotionReading) (now : ℝ),
      total_weight readings now =
        (readings.map (fun r =>
          r.confidence * (1 / 2 : ℝ) ^ ((now - r.timestamp) / DECAY_HALF_LIFE))).sum) ∧
    (∀ (readings : List EmotionReading) (now : ℝ) (e : Emotion),
      raw_score readings now e =
        ((readings.filter (fun r => r.emotion = e)).map (fun r =>
          r.confidence * (1 / 2 : ℝ) ^ ((now - r.timestamp) / DECAY_HALF_LIFE))).sum) ∧
    (∀ r : EmotionReading, r.confidence = 1 →
      |decayed_confidence r (r.timestamp + 10) - 1 / 2| < 1 / 1000000) := by
  refine ⟨fun readings now => rfl, fun readings now e => rfl, ?_⟩
  intro r h
  unfold decayed_confidence DECAY_HALF_LIFE
  rw [h]
  have harg : (r.timestamp + 10 - r.timestamp) / (10 : ℝ) = 1 := by ring
  rw [harg, Real.rpow_one]
  norm_num

/-- Witness for C6 at a concrete reading of confidence 1 aged 10 seconds. -/
theorem C6_decay_half_life_witness :
    (⟨Emotion.happy, 1, 0⟩ : EmotionReading).confidence = 1 ∧
    |decayed_confidence ⟨Emotion.happy, 1, 0⟩
        ((⟨Emotion.happy, 1, 0⟩ : EmotionReading).timestamp + 10) - 1 / 2| < 1 / 1000000 :=
  ⟨rfl, C6_decay_half_life.2.2 ⟨Emotion.happy, 1, 0⟩ rfl⟩

lemma decayed_fresh (e : Emotion) (c t : ℝ) : decayed_confidence ⟨e, c, t⟩ t = c := by
  unfold decayed_confidence DECAY_HALF_LIFE
  norm_num [Real.rpow_zero]

lemma argmax_indicator (e : Emotion) :
    argmaxEmotion (fun x : Emotion => if x = e then (1 : ℝ) else 0) = e := by
  cases e <;> simp [argmaxEmotion, EMOTIONS, maxStep] <;> norm_num

lemma aggregate_single_fresh (e : Emotion) (c t : ℝ) (hc : 0 < c) :
    aggregate_modality [⟨e, c, t⟩] t =
      ⟨e, 1, EMOTIONS.map (fun x => (x, if x = e then (1 : ℝ) else 0))⟩ := by
  have hraw : ∀ x, raw_score [⟨e, c, t⟩] t x = if x = e then c else 0 := by
    intro x
    unfold raw_score
    by_cases hx : x = e
    · subst hx
      simp [decayed_fresh]
    · have hex : ¬ (e = x) := fun h => hx h.symm
      simp [List.filter, hex, hx]
  have htw : total_weight [⟨e, c, t⟩] t = c := by
    unfold total_weight
    simp [decayed_fresh]
  have hAggF : aggScores [⟨e, c, t⟩] t = fun x => if x = e then (1 : ℝ) else 0 := by
    unfold aggScores
    rw [htw, if_pos hc]
    funext x
    rw [hraw]
    by_cases hx : x = e
    · rw [if_pos hx, if_pos hx, div_self (ne_of_gt hc)]
    · rw [if_neg hx, if_neg hx, zero_div]
  rw [aggregate_modality_nonempty _ _ (by simp), hAggF, argmax_indicator]
  simp

/-- Witness for C2: a concrete state with a fresh confident sad audio reading
and a fresh confident happy video reading raises the incongruence flag. -/
theorem C2_incongruence_iff_witness :
    (get_fused_emotion ⟨10, [⟨.sad, 8 / 10, 5⟩], [⟨.happy, 8 / 10, 5⟩]⟩ 5).incongruence
      = true := by
  apply (C2_incongruence_iff ⟨10, [⟨.sad, 8 / 10, 5⟩], [⟨.happy, 8 / 10, 5⟩]⟩ 5).mpr
  dsimp only
  rw [aggregate_single_fresh .sad (8 / 10) 5 (by norm_num),
    aggregate_single_fresh .happy (8 / 10) 5 (by norm_num)]
  exact ⟨by decide, by decide, by decide, by norm_num, by norm_num⟩

/-- Witness for C5 at a concrete audio-only state. -/
theorem C5_empty_window_reweighting_witness :
    (get_fused_emotion ⟨10, [⟨.sad, 9 / 10, 5⟩], []⟩ 5).dominant =
      (aggregate_modality [⟨.sad, 9 / 10, 5⟩] 5).emotion ∧
    (get_fused_emotion ⟨10, [⟨.sad, 9 / 10, 5⟩], []⟩ 5).confidence =
      (aggregate_modality [⟨.sad, 9 / 10, 5⟩] 5).confidence ∧
    (get_fused_emotion ⟨10, [⟨.sad, 9 / 10, 5⟩], []⟩ 5).fused_scores =
      (aggregate_modality [⟨.sad, 9 / 10, 5⟩] 5).scores :=
  (C5_empty_window_reweighting ⟨10, [⟨.sad, 9 / 10, 5⟩], []⟩ 5).1 rfl (by simp)

/-- Witness for C10: one audio reading with confidence `0.0` and an empty
video window produce the `happy`-labelled zero-confidence aggregates. -/
theorem C10_zero_weight_happy_witness :
    (get_fused_emotion ⟨10, [⟨.neutral, 0, 5⟩], []⟩ 5).audio.emotion = .happy ∧
    (get_fused_emotion ⟨10, [⟨.neutral, 0, 5⟩], []⟩ 5).audio.confidence = 0 ∧
    (get_fused_emotion ⟨10, [⟨.neutral, 0, 5⟩], []⟩ 5).dominant = .happy ∧
    (get_fused_emotion ⟨10, [⟨.neutral, 0, 5⟩], []⟩ 5).confidence = 0 :=
  C10_zero_weight_happy ⟨10, [⟨.neutral, 0, 5⟩], []⟩ 5 (by simp)
    (by
      intro r hr
      rw [List.mem_singleton] at hr
      subst hr
      norm_num)
    (by simp [total_weight, decayed_confidence])
    rfl

/-! ### Alignment claims -/

lemma except_bind_ok {α β : Type} (a : α) (g : α → Except Unit β) :
    (Except.ok a >>= g : Except Unit β) = g a := rfl

lemma except_bind_error {α β : Type} (g : α → Except Unit β) :
    ((Except.error () : Except Unit α) >>= g) = .error () := rfl

/-- C4 (amended): a frame is assigned to a word exactly when its timestamp
parses to `t` with `start <= t < end`; a frame at `t = end` is never
assigned; a frame at `t = start` is assigned provided `start < end` (for a
degenerate segment with `start = end` no frame is assigned at all); frames
with missing or unparseable timestamps are assigned to no word. -/
theorem C4_half_open_interval (frames : List Frame) (a b : ℚ) (f : Frame) :
    (∀ (w : Option String) (frs : List Frame),
      alignOne ⟨w, .num a, .num b⟩ frs =
        (aggregate_frames (matchedFrames frs a b)).map
          (fun r => ⟨getWord w, a, b, r.1, r.2.1, r.2.2⟩)) ∧
    (f ∈ matchedFrames frames a b ↔ f ∈ frames ∧ frame_in_range f a b = true) ∧
    (frame_in_range f a b = true ↔ ∃ t, f.timestamp = .num t ∧ a ≤ t ∧ t < b) ∧
    (f.timestamp = .num b → frame_in_range f a b = false) ∧
    (a < b → f.timestamp = .num a → frame_in_range f a b = true) ∧
    ((f.timestamp = .missing ∨ f.timestamp = .none ∨ f.timestamp = .bad) →
      frame_in_range f a b = false) := by
  refine ⟨?_, ?_, ?_, ?_, ?_, ?_⟩
  · intro w frs
    show ((aggregate_frames (matchedFrames frs (parseStartQ (.num a))
        (parseEndQ (parseStartQ (.num a)) (.num b)))) >>= _) = _
    cases h : aggregate_frames (matchedFrames frs a b) with
    | error e =>
      cases e
      rw [show parseStartQ (.num a) = a from rfl, show parseEndQ a (.num b) = b from rfl, h,
        except_bind_error]
      rfl
    | ok r =>
      rw [show parseStartQ (.num a) = a from rfl, show parseEndQ a (.num b) = b from rfl, h,
        except_bind_ok]
      rfl
  · exact List.mem_filter
  · constructor
    · intro h
      cases ht : f.timestamp with
      | num t =>
        rw [frame_in_range, ht] at h
        simp only [Bool.and_eq_true, decide_eq_true_eq] at h
        exact ⟨t, rfl, h.1, h.2⟩
      | missing => rw [frame_in_range, ht] at h; cases h
      | none => rw [frame_in_range, ht] at h; cases h
      | bad => rw [frame_in_range, ht] at h; cases h
    · rintro ⟨t, ht, h1, h2⟩
      rw [frame_in_range, ht]
      simp [h1, h2]
  · intro ht
    rw [frame_in_range, ht]
    simp [lt_irrefl]
  · intro hab ht
    rw [frame_in_range, ht]
    simp [le_refl, hab]
  · rintro (ht | ht | ht) <;> rw [frame_in_range, ht]

/-- C4 counterexample: the claim asserts unconditionally that a frame with
timestamp equal to the word's start is assigned to that word; for the
degenerate (but data-model-legal, `end >= start`) segment with
`start = end = 1`, the frame at `t = 1` satisfies `t = start` yet is
assigned to no word (`start <= t < end` is empty), and the word aggregates
no frames. -/
theorem C4_half_open_interval_counterexample :
    (⟨.num 1, Option.none, .missing, Option.none⟩ : Frame).timestamp = .num 1 ∧
    frame_in_range ⟨.num 1, Option.none, .missing, Option.none⟩ 1 1 = false ∧
    matchedFrames [⟨.num 1, Option.none, .missing, Option.none⟩] 1 1 = [] ∧
    align_emotions [⟨some "w", .num 1, .num 1⟩]
        [⟨.num 1, Option.none, .missing, Option.none⟩] =
      .ok [⟨"w", 1, 1, .neutral, 0, []⟩] := by
  refine ⟨rfl, by decide, by decide, by decide⟩

/-- Witness for C4 at a non-degenerate segment: a frame exactly at the
word's start is in range and matched. -/
theorem C4_half_open_interval_witness :
    frame_in_range ⟨.num 0, Option.none, .missing, Option.none⟩ 0 1 = true ∧
    (⟨.num 0, Option.none, .missing, Option.none⟩ : Frame) ∈
      matchedFrames [⟨.num 0, Option.none, .missing, Option.none⟩] 0 1 := by
  have h := C4_half_open_interval [⟨.num 0, Option.none, .missing, Option.none⟩] 0 1
    ⟨.num 0, Option.none, .missing, Option.none⟩
  have h1 : frame_in_range ⟨.num 0, Option.none, .missing, Option.none⟩ 0 1 = true :=
    h.2.2.2.2.1 (by decide) rfl
  exact ⟨h1, h.2.1.mpr ⟨by simp, h1⟩⟩

/-- C3 (amended): for a word whose matched frame set has positive total
weight, every label accumulator is normalized by the total weight and the
returned scores dict holds the normalized values; if the maximum normalized
score is positive, the output emotion is the first label in canonical
iteration order attaining that maximum (strictly larger than every earlier
label's score, at least as large as every label's score) and the output
confidence is that label's normalized score; if the maximum normalized
score is not positive (e.g. all accumulated scores are zero), the source
returns `neutral` with confidence `0.0` instead of the first-maximum label
`happy`. -/
theorem C3_normalized_argmax (seg : WordSegment) (frames : List Frame) (s : ScoreMap) (tw : ℚ)
    (hacc : accumFrames (matchedFrames frames (parseStartQ seg.start)
        (parseEndQ (parseStartQ seg.start) seg.stop)) ScoreMap.zero 0 = .ok (s, tw))
    (hne : matchedFrames frames (parseStartQ seg.start)
        (parseEndQ (parseStartQ seg.start) seg.stop) ≠ [])
    (htw : 0 < tw) :
    (0 < maxScore (fun e => s.get e / tw) →
      alignOne seg frames = .ok ⟨getWord seg.word, parseStartQ seg.start,
        parseEndQ (parseStartQ seg.start) seg.stop,
        argmaxEmotion (fun e => s.get e / tw),
        s.get (argmaxEmotion (fun e => s.get e / tw)) / tw,
        scoresList (fun e => s.get e / tw)⟩ ∧
      (∀ e ∈ EMOTIONS, s.get e / tw ≤ s.get (argmaxEmotion (fun e => s.get e / tw)) / tw) ∧
      (∀ e, emotionIdx e < emotionIdx (argmaxEmotion (fun e => s.get e / tw)) →
        s.get e / tw < s.get (argmaxEmotion (fun e => s.get e / tw)) / tw)) ∧
    (maxScore (fun e => s.get e / tw) ≤ 0 →
      alignOne seg frames = .ok ⟨getWord seg.word, parseStartQ seg.start,
        parseEndQ (parseStartQ seg.start) seg.stop, .neutral, 0,
        scoresList (fun e => s.get e / tw)⟩) := by
  have hAgg : aggregate_frames (matchedFrames frames (parseStartQ seg.start)
      (parseEndQ (parseStartQ seg.start) seg.stop)) =
      if maxScore (fun e => s.get e / tw) ≤ 0 then
        .ok (.neutral, 0, scoresList (fun e => s.get e / tw))
      else
        .ok (argmaxEmotion (fun e => s.get e / tw),
          s.get (argmaxEmotion (fun e => s.get e / tw)) / tw,
          scoresList (fun e => s.get e / tw)) := by
    rw [aggregate_frames, if_neg hne, hacc, except_bind_ok]
    dsimp only
    rw [if_neg (not_le.mpr htw)]
  constructor
  · intro hms
    refine ⟨?_, argmax_is_max _, argmax_first _⟩
    rw [alignOne, hAgg, if_neg (not_le.mpr hms), except_bind_ok]
  · intro hms
    rw [alignOne, hAgg, if_pos hms, except_bind_ok]

/-- C3 counterexample: a matched frame carrying a non-empty score dict with
no canonical keys yields total weight `1 > 0` with every accumulator `0`;
all normalized scores tie (at zero), so the first canonical label attaining
the maximum is `happy`, yet the source's `max_score <= 0` branch returns
`neutral` — refuting the claim's tie case. -/
theorem C3_normalized_argmax_counterexample :
    accumFrames [⟨.num 0, Option.none, .missing, some [("x", .num 0)]⟩] ScoreMap.zero 0 =
      .ok (ScoreMap.zero, 1) ∧
    (0 : ℚ) < 1 ∧
    (∀ e ∈ EMOTIONS, ScoreMap.zero.get e / 1 ≤ ScoreMap.zero.get Emotion.happy / 1) ∧
    aggregate_frames [⟨.num 0, Option.none, .missing, some [("x", .num 0)]⟩] =
      .ok (.neutral, 0, EMOTIONS.map (fun e => (e, (0 : ℚ)))) ∧
    Emotion.neutral ≠ Emotion.happy := by
  refine ⟨?_, ?_, ?_, ?_, ?_⟩ <;> with_unfolding_all decide

/-- Witness for C3 on a single matched single-label frame. -/
theorem C3_normalized_argmax_witness :
    alignOne ⟨some "w", .num 0, .num 1⟩ [⟨.num 0, some "sad", .missing, Option.none⟩] =
      .ok ⟨getWord (some "w"), parseStartQ (.num 0), parseEndQ (parseStartQ (.num 0)) (.num 1),
        argmaxEmotion (fun e => (ScoreMap.zero.add Emotion.sad 1).get e / (0 + 1 : ℚ)),
        (ScoreMap.zero.add Emotion.sad 1).get
          (argmaxEmotion (fun e => (ScoreMap.zero.add Emotion.sad 1).get e / (0 + 1 : ℚ))) /
          (0 + 1 : ℚ),
        scoresList (fun e => (ScoreMap.zero.add Emotion.sad 1).get e / (0 + 1 : ℚ))⟩ :=
  ((C3_normalized_argmax ⟨some "w", .num 0, .num 1⟩
    [⟨.num 0, some "sad", .missing, Option.none⟩]
    (ScoreMap.zero.add Emotion.sad 1) (0 + 1 : ℚ) rfl (by decide)
    (by with_unfolding_all decide)).1 (by with_unfolding_all decide)).1

/-- A frame's scores dict (when present) has a float-coercible (or absent)
value under every canonical label, so the `float(...)` calls of the
score-distribution branch cannot raise. -/
def ScoresWF (f : Frame) : Prop :=
  ∀ sc, f.scores = some sc → ∀ e : Emotion, (scoreVal sc e).isSome

/-- A frame's confidence is absent, `None`, or a numeric value in `[0, 1]`. -/
def ConfBounded : FloatLike → Prop
  | .missing => True
  | .none => True
  | .num q => 0 ≤ q ∧ q ≤ 1
  | .bad => False

/-- A frame's scores dict values under canonical labels lie in `[0, 1]`
(an absent key reads as `0`). -/
def ScoresBounded (f : Frame) : Prop :=
  ∀ sc, f.scores = some sc → ∀ (e : Emotion) (v : ℚ), scoreVal sc e = some v → 0 ≤ v ∧ v ≤ 1

lemma frameWeight_ok (c : FloatLike) (h : c ≠ .bad) : ∃ w, frameWeight c = .ok w := by
  cases c with
  | missing => exact ⟨1, rfl⟩
  | none => exact ⟨1, rfl⟩
  | num q => exact ⟨q, rfl⟩
  | bad => exact absurd rfl h

lemma frameWeight_bounds (c : FloatLike) (w : ℚ) (h : frameWeight c = .ok w)
    (hb : ConfBounded c) : 0 ≤ w ∧ w ≤ 1 := by
  cases c with
  | missing =>
    injection h with h
    rw [← h]
    norm_num
  | none =>
    injection h with h
    rw [← h]
    norm_num
  | num q =>
    injection h with h
    rw [← h]
    exact hb
  | bad => cases h

lemma ScoreMap.get_add (s : ScoreMap) (e : Emotion) (w : ℚ) (x : Emotion) :
    (s.add e w).get x = if x = e then s.get x + w else s.get x := by
  cases e <;> cases x <;> simp [ScoreMap.add, ScoreMap.get]

lemma ScoreMap.get_zero (x : Emotion) : ScoreMap.zero.get x = 0 := by
  cases x <;> rfl

lemma addFrameScores_ok :
    ∀ (es : List Emotion) (sc : List (String × FloatLike)) (w : ℚ) (s : ScoreMap),
      (∀ e : Emotion, (scoreVal sc e).isSome) →
      ∃ s2, addFrameScores es sc w s = .ok s2 := by
  intro es
  induction es with
  | nil => intro sc w s _; exact ⟨s, rfl⟩
  | cons e es ih =>
    intro sc w s h
    obtain ⟨v, hv⟩ := Option.isSome_iff_exists.mp (h e)
    obtain ⟨s2, hs2⟩ := ih sc w (s.add e (v * w)) h
    refine ⟨s2, ?_⟩
    rw [addFrameScores, hv]
    exact hs2

lemma addFrameScores_get :
    ∀ (es : List Emotion) (sc : List (String × FloatLike)) (w : ℚ) (s s2 : ScoreMap),
      addFrameScores es sc w s = .ok s2 → es.Nodup →
      ∀ x : Emotion,
        (x ∉ es → s2.get x = s.get x) ∧
        (x ∈ es → ∃ v, scoreVal sc x = some v ∧ s2.get x = s.get x + v * w) := by
  intro es
  induction es with
  | nil =>
    intro sc w s s2 h _ x
    injection h with h
    rw [h]
    exact ⟨fun _ => rfl, fun hx => absurd hx (by simp)⟩
  | cons e es ih =>
    intro sc w s s2 h hnd x
    rw [addFrameScores] at h
    cases hv : scoreVal sc e with
    | none => rw [hv] at h; cases h
    | some v =>
      rw [hv] at h
      have hnd2 := (List.nodup_cons.mp hnd).2
      have hene := (List.nodup_cons.mp hnd).1
      have hih := ih sc w (s.add e (v * w)) s2 h hnd2
      constructor
      · intro hx
        have hxe : x ≠ e := fun hh => hx (hh ▸ List.mem_cons_self e es)
        have hxes : x ∉ es := fun hh => hx (List.mem_cons_of_mem e hh)
        rw [(hih x).1 hxes, ScoreMap.get_add, if_neg hxe]
      · intro hx
        rcases List.mem_cons.mp hx with rfl | hxes
        · refine ⟨v, hv, ?_⟩
          rw [(hih x).1 hene, ScoreMap.get_add, if_pos rfl]
        · obtain ⟨v2, hv2, hg⟩ := (hih x).2 hxes
          have hxe : x ≠ e := fun hh => hene (hh ▸ hxes)
          refine ⟨v2, hv2, ?_⟩
          rw [hg, ScoreMap.get_add, if_neg hxe]

lemma accumFrames_ok :
    ∀ (fs : List Frame) (s : ScoreMap) (tw : ℚ),
      (∀ f ∈ fs, f.confidence ≠ .bad ∧ ScoresWF f) →
      ∃ s2 tw2, accumFrames fs s tw = .ok (s2, tw2) := by
  intro fs
  induction fs with
  | nil => intro s tw _; exact ⟨s, tw, rfl⟩
  | cons f rest ih =>
    intro s tw h
    have hf := h f (List.mem_cons_self f rest)
    have hrest : ∀ g ∈ rest, g.confidence ≠ .bad ∧ ScoresWF g :=
      fun g hg => h g (List.mem_cons_of_mem f hg)
    obtain ⟨w, hw⟩ := frameWeight_ok f.confidence hf.1
    cases hsc : f.scores with
    | none =>
      obtain ⟨s2, tw2, hrec⟩ := ih (s.add (normalize_emotion f.emotion) w) (tw + w) hrest
      refine ⟨s2, tw2, ?_⟩
      simp only [accumFrames, hsc, hw, except_bind_ok]
      exact hrec
    | some sc =>
      by_cases hemp : sc = []
      · obtain ⟨s2, tw2, hrec⟩ := ih (s.add (normalize_emotion f.emotion) w) (tw + w) hrest
        refine ⟨s2, tw2, ?_⟩
        simp only [accumFrames, hsc, if_pos hemp, hw, except_bind_ok]
        exact hrec
      · obtain ⟨s1, hs1⟩ := addFrameScores_ok EMOTIONS sc w s (hf.2 sc hsc)
        obtain ⟨s2, tw2, hrec⟩ := ih s1 (tw + w) hrest
        refine ⟨s2, tw2, ?_⟩
        simp only [accumFrames, hsc, if_neg hemp, hw, except_bind_ok, hs1]
        exact hrec

lemma accumFrames_bounds :
    ∀ (fs : List Frame) (s : ScoreMap) (tw : ℚ) (s2 : ScoreMap) (tw2 : ℚ),
      (∀ f ∈ fs, ConfBounded f.confidence ∧ ScoresBounded f) →
      accumFrames fs s tw = .ok (s2, tw2) →
      (∀ x, 0 ≤ s.get x) → (∀ x, s.get x ≤ tw) →
      (∀ x, 0 ≤ s2.get x) ∧ (∀ x, s2.get x ≤ tw2) := by
  intro fs
  induction fs with
  | nil =>
    intro s tw s2 tw2 _ h h0 h1
    injection h with h
    injection h with ha hb
    subst ha
    subst hb
    exact ⟨h0, h1⟩
  | cons f rest ih =>
    intro s tw s2 tw2 h hacc h0 h1
    have hf := h f (List.mem_cons_self f rest)
    have hrest : ∀ g ∈ rest, ConfBounded g.confidence ∧ ScoresBounded g :=
      fun g hg => h g (List.mem_cons_of_mem f hg)
    have hcb : f.confidence ≠ .bad := by
      intro hh
      rw [hh] at hf
      exact hf.1
    obtain ⟨w, hw⟩ := frameWeight_ok f.confidence hcb
    have hwb := frameWeight_bounds f.confidence w hw hf.1
    cases hsc : f.scores with
    | none =>
      simp only [accumFrames, hsc, hw, except_bind_ok] at hacc
      refine ih _ _ _ _ hrest hacc ?_ ?_
      · intro x
        rw [ScoreMap.get_add]
        split
        · exact add_nonneg (h0 x) hwb.1
        · exact h0 x
      · intro x
        rw [ScoreMap.get_add]
        split
        · exact add_le_add (h1 x) (le_refl w)
        · linarith [h1 x, hwb.1]
    | some sc =>
      by_cases hemp : sc = []
      · simp only [accumFrames, hsc, if_pos hemp, hw, except_bind_ok] at hacc
        refine ih _ _ _ _ hrest hacc ?_ ?_
        · intro x
          rw [ScoreMap.get_add]
          split
          · exact add_nonneg (h0 x) hwb.1
          · exact h0 x
        · intro x
          rw [ScoreMap.get_add]
          split
          · exact add_le_add (h1 x) (le_refl w)
          · linarith [h1 x, hwb.1]
      · simp only [accumFrames, hsc, if_neg hemp, hw, except_bind_ok] at hacc
        cases hs1 : addFrameScores EMOTIONS sc w s with
        | error e =>
          rw [hs1] at hacc
          cases e
          rw [except_bind_error] at hacc
          exact absurd hacc (by simp)
        | ok s1 =>
          rw [hs1, except_bind_ok] at hacc
          have hget := addFrameScores_get EMOTIONS sc w s s1 hs1 (by decide)
          refine ih _ _ _ _ hrest hacc ?_ ?_
          · intro x
            obtain ⟨v, hv, hg⟩ := (hget x).2 (emotion_mem_EMOTIONS x)
            have hvb := hf.2 sc hsc x v hv
            rw [hg]
            exact add_nonneg (h0 x) (mul_nonneg hvb.1 hwb.1)
          · intro x
            obtain ⟨v, hv, hg⟩ := (hget x).2 (emotion_mem_EMOTIONS x)
            have hvb := hf.2 sc hsc x v hv
            rw [hg]
            have hvw : v * w ≤ w := mul_le_of_le_one_left hwb.1 hvb.2
            linarith [h1 x]

lemma aggregate_frames_ok (frames : List Frame)
    (h : ∀ f ∈ frames, f.confidence ≠ .bad ∧ ScoresWF f) :
    ∃ r, aggregate_frames frames = .ok r := by
  by_cases hf : frames = []
  · exact ⟨(.neutral, 0, []), by rw [aggregate_frames, if_pos hf]⟩
  · obtain ⟨s2, tw2, hacc⟩ := accumFrames_ok frames ScoreMap.zero 0 h
    rw [aggregate_frames, if_neg hf, hacc, except_bind_ok]
    dsimp only
    by_cases h1 : tw2 ≤ 0
    · rw [if_pos h1]
      exact ⟨_, rfl⟩
    · rw [if_neg h1]
      by_cases h2 : maxScore (fun e => s2.get e / tw2) ≤ 0
      · rw [if_pos h2]
        exact ⟨_, rfl⟩
      · rw [if_neg h2]
        exact ⟨_, rfl⟩

lemma aggregate_frames_conf (frames : List Frame)
    (hb : ∀ f ∈ frames, ConfBounded f.confidence ∧ ScoresBounded f)
    (r : Emotion × ℚ × List (Emotion × ℚ)) (h : aggregate_frames frames = .ok r) :
    0 ≤ r.2.1 ∧ r.2.1 ≤ 1 := by
  by_cases hf : frames = []
  · rw [aggregate_frames, if_pos hf] at h
    injection h with h
    rw [← h]
    norm_num
  · rw [aggregate_frames, if_neg hf] at h
    cases hacc : accumFrames frames ScoreMap.zero 0 with
    | error e =>
      cases e
      rw [hacc, except_bind_error] at h
      exact absurd h (by simp)
    | ok p =>
      obtain ⟨s2, tw2⟩ := p
      rw [hacc, except_bind_ok] at h
      dsimp only at h
      have hbnd := accumFrames_bounds frames ScoreMap.zero 0 s2 tw2 hb hacc
        (fun x => by simp [ScoreMap.get_zero]) (fun x => by simp [ScoreMap.get_zero])
      by_cases h1 : tw2 ≤ 0
      · rw [if_pos h1] at h
        injection h with h
        rw [← h]
        norm_num
      · rw [if_neg h1] at h
        have htw : 0 < tw2 := not_le.mp h1
        by_cases h2 : maxScore (fun e => s2.get e / tw2) ≤ 0
        · rw [if_pos h2] at h
          injection h with h
          rw [← h]
          norm_num
        · rw [if_neg h2] at h
          injection h with h
          rw [← h]
          dsimp only
          constructor
          · exact div_nonneg (hbnd.1 _) (le_of_lt htw)
          · rw [div_le_one htw]
            exact hbnd.2 _

lemma align_emotions_cons (seg : WordSegment) (segs : List WordSegment)
    (frames : List Frame) :
    align_emotions (seg :: segs) frames =
      (alignOne seg frames) >>= fun we =>
        (align_emotions segs frames) >>= fun rest => .ok (we :: rest) := by
  simp only [align_emotions, List.mapM_cons]
  rfl

/-- C8 (amended): every `WordEmotion` produced by `align_emotions` has
confidence in `[0, 1]` provided each frame's confidence is absent, `None`,
or a numeric value in `[0, 1]` and each frame's score values under
canonical labels are absent or numeric values in `[0, 1]`.  (For arbitrary
score values the bound fails: see the counterexample, where a matched score
value of `100` propagates to a confidence of `100`.) -/
theorem C8_confidence_in_unit_interval :
    ∀ (segs : List WordSegment) (frames : List Frame) (res : List WordEmotion),
      (∀ f ∈ frames, ConfBounded f.confidence ∧ ScoresBounded f) →
      align_emotions segs frames = .ok res →
      ∀ we ∈ res, 0 ≤ we.confidence ∧ we.confidence ≤ 1 := by
  intro segs
  induction segs with
  | nil =>
    intro frames res _ hok we hwe
    have hres : res = [] := by
      rw [align_emotions] at hok
      injection hok with hok
      exact hok.symm
    subst hres
    cases hwe
  | cons seg segs ih =>
    intro frames res hb hok we hwe
    rw [align_emotions_cons] at hok
    cases h1 : alignOne seg frames with
    | error e =>
      cases e
      rw [h1, except_bind_error] at hok
      exact absurd hok (by simp)
    | ok w1 =>
      rw [h1, except_bind_ok] at hok
      cases h2 : align_emotions segs frames with
      | error e =>
        cases e
        rw [h2, except_bind_error] at hok
        exact absurd hok (by simp)
      | ok rest =>
        rw [h2, except_bind_ok] at hok
        injection hok with hok
        subst hok
        rcases List.mem_cons.mp hwe with rfl | hwe
        · rw [alignOne] at h1
          cases hagg : aggregate_frames (matchedFrames frames (parseStartQ seg.start)
              (parseEndQ (parseStartQ seg.start) seg.stop)) with
          | error e =>
            cases e
            rw [hagg, except_bind_error] at h1
            exact absurd h1 (by simp)
          | ok r =>
            rw [hagg, except_bind_ok] at h1
            injection h1 with h1
            have hbm : ∀ f ∈ matchedFrames frames (parseStartQ seg.start)
                (parseEndQ (parseStartQ seg.start) seg.stop),
                ConfBounded f.confidence ∧ ScoresBounded f :=
              fun f hf => hb f (List.mem_of_mem_filter hf)
            have hc := aggregate_frames_conf _ hbm r hagg
            rw [← h1]
            exact hc
        · exact ih frames rest hb h2 we hwe

/-- C8 counterexample: a matched frame carrying the score distribution
`{"happy": 100}` (arbitrary float score values, as the claim allows)
produces a `WordEmotion` with confidence `100`, outside `[0, 1]`. -/
theorem C8_confidence_in_unit_interval_counterexample :
    align_emotions [⟨some "w", .num 0, .num 1⟩]
        [⟨.num 0, Option.none, .missing, some [("happy", .num 100)]⟩] =
      .ok [⟨"w", 0, 1, .happy, 100,
        [(.happy, 100), (.sad, 0), (.angry, 0), (.neutral, 0), (.fearful, 0),
         (.disgusted, 0), (.surprised, 0)]⟩] ∧
    ¬ ((100 : ℚ) ≤ 1) := by
  constructor
  · with_unfolding_all decide
  · norm_num

/-- Witness for C8 on a word with no matched frames. -/
theorem C8_confidence_in_unit_interval_witness :
    0 ≤ (⟨"w", 0, 1, .neutral, 0, []⟩ : WordEmotion).confidence ∧
      (⟨"w", 0, 1, .neutral, 0, []⟩ : WordEmotion).confidence ≤ 1 :=
  C8_confidence_in_unit_interval [⟨some "w", .num 0, .num 1⟩] [] _
    (fun f hf => absurd hf (List.not_mem_nil f)) rfl
    ⟨"w", 0, 1, .neutral, 0, []⟩ (List.mem_singleton_self _)

/-- C1 (amended): `align_emotions` returns a result (never raises) provided
each frame's confidence field is absent, `None`, or float-coercible and
each frame's score values under canonical labels are float-coercible or
absent (the unguarded `float(...)` calls of `_aggregate_frames` raise
otherwise — see the counterexample); timestamps, segment fields and
emotion labels may be arbitrary or malformed (they coerce or exclude the
frame).  `update_audio` / `update_video` never raise provided the label is
a string (any case, unrecognized normalizes to `neutral`; a non-string
label makes `emotion.lower()` raise) and the confidence is numeric
(clamped to `[0, 1]`). -/
theorem C1_never_raise :
    (∀ (segs : List WordSegment) (frames : List Frame),
      (∀ f ∈ frames, f.confidence ≠ .bad ∧ ScoresWF f) →
      ∃ res, align_emotions segs frames = .ok res) ∧
    (∀ (s : String) (c t : ℝ) (st : FusionState),
      ∃ st2, update_audio (.str s) c t st = .ok st2) ∧
    (∀ (s : String) (c t : ℝ) (st : FusionState),
      ∃ st2, update_video (.str s) c t st = .ok st2) := by
  refine ⟨?_, fun s c t st => ⟨_, rfl⟩, fun s c t st => ⟨_, rfl⟩⟩
  intro segs
  induction segs with
  | nil => intro frames _; exact ⟨[], rfl⟩
  | cons seg segs ih =>
    intro frames h
    obtain ⟨rest, hrest⟩ := ih frames h
    have hm : ∀ f ∈ matchedFrames frames (parseStartQ seg.start)
        (parseEndQ (parseStartQ seg.start) seg.stop),
        f.confidence ≠ .bad ∧ ScoresWF f :=
      fun f hf => h f (List.mem_of_mem_filter hf)
    obtain ⟨r, hagg⟩ := aggregate_frames_ok _ hm
    refine ⟨⟨getWord seg.word, parseStartQ seg.start,
      parseEndQ (parseStartQ seg.start) seg.stop, r.1, r.2.1, r.2.2⟩ :: rest, ?_⟩
    rw [align_emotions_cons]
    have h1 : alignOne seg frames = .ok ⟨getWord seg.word, parseStartQ seg.start,
        parseEndQ (parseStartQ seg.start) seg.stop, r.1, r.2.1, r.2.2⟩ := by
      rw [alignOne]
      rw [hagg, except_bind_ok]
    rw [h1, except_bind_ok, hrest, except_bind_ok]

/-- C1 counterexample: a matched frame whose confidence is not
float-coercible makes `align_emotions` raise (the `float(weight)` call in
`_aggregate_frames` is unguarded), and a non-string label makes
`update_audio` / `update_video` raise in `emotion.lower()`. -/
theorem C1_never_raise_counterexample :
    align_emotions [⟨some "hi", .num 0, .num 1⟩]
        [⟨.num 0, Option.none, .bad, Option.none⟩] = .error () ∧
    update_audio .nonstr (1 / 2) 0 ⟨10, [], []⟩ = .error () ∧
    update_video .nonstr (1 / 2) 0 ⟨10, [], []⟩ = .error () :=
  ⟨by decide, rfl, rfl⟩

/-- Witness for C1 on well-formed inputs. -/
theorem C1_never_raise_witness :
    (∃ res, align_emotions [⟨some "w", .num 0, .num 1⟩] [] = .ok res) ∧
    (∃ st2, update_audio (.str "SAD") (1 / 2) 0 ⟨10, [], []⟩ = .ok st2) ∧
    (∃ st2, update_video (.str "weird") (2 : ℝ) 0 ⟨10, [], []⟩ = .ok st2) :=
  ⟨C1_never_raise.1 [⟨some "w", .num 0, .num 1⟩] []
      (fun f hf => absurd hf (List.not_mem_nil f)),
    C1_never_raise.2.1 "SAD" (1 / 2) 0 ⟨10, [], []⟩,
    C1_never_raise.2.2 "weird" 2 0 ⟨10, [], []⟩⟩
